import Mathlib

/-!
Verification of the Reversi rule engine (board, turn state machine, game
history/undo) against its natural-language specification.  The definitions
below are a shallow embedding of `src/board.rs`, `src/turn.rs` and
`src/game.rs`: pure Rust functions become Lean functions, in-place mutation
becomes explicit state passing, and fallible Rust functions returning
`Result` become functions into `Except ReversiError`.  The `u8` score
fields are modelled as `Nat` with explicit wrap-around (`% 256`) at every
arithmetic update.  Coordinates are modelled as pairs of integers: the
revision of `Coord` used by `turn.rs` steps freely in all directions with
no bounds guarantee (spec section 3), a negative component standing for a
wrapped-around `usize`, which every slice access treats as out of range.
-/

set_option maxRecDepth 4000

namespace Reversi

/-- Modelled from the spec: the two sides, Dark and Light (section 3; the
crate root defining `Side` is not among the provided sources). -/
inductive Side where
  | Dark
  | Light
  deriving DecidableEq, Repr

/-- Total and involutive opposite, per spec section 3. -/
def Side.opposite : Side → Side
  | .Dark => .Light
  | .Light => .Dark

/-- Modelled from the spec: the error kinds of section 7 (payloads omitted;
the crate root defining `ReversiError` is not among the provided sources). -/
inductive ReversiError where
  | OutOfBoundCoord
  | OutOfBoundStep
  | EmptyCell
  | CellAlreadyTaken
  | IllegalMove
  | EndedGame
  | NoUndo
  deriving DecidableEq, Repr

deriving instance DecidableEq for Except

/-- `BOARD_SIZE` from board.rs. -/
def BOARD_SIZE : Nat := 8

/-- `NUM_CELLS` from board.rs. -/
def NUM_CELLS : Nat := BOARD_SIZE * BOARD_SIZE

/-- The eight cardinal directions, board.rs. -/
inductive Direction where
  | North
  | NE
  | East
  | SE
  | South
  | SW
  | West
  | NW
  deriving DecidableEq, Repr

instance : Fintype Direction :=
  ⟨⟨{.North, .NE, .East, .SE, .South, .SW, .West, .NW}, by decide⟩,
   fun d => by cases d <;> decide⟩

/-- `DIRECTIONS`, board.rs: the fixed scan order. -/
def DIRECTIONS : List Direction :=
  [.North, .NE, .East, .SE, .South, .SW, .West, .NW]

/-- Row displacement of one step along a direction. -/
def Direction.dr : Direction → Int
  | .North => -1
  | .NE => -1
  | .East => 0
  | .SE => 1
  | .South => 1
  | .SW => 1
  | .West => 0
  | .NW => -1

/-- Column displacement of one step along a direction. -/
def Direction.dc : Direction → Int
  | .North => 0
  | .NE => 1
  | .East => 1
  | .SE => 1
  | .South => 0
  | .SW => -1
  | .West => -1
  | .NW => -1

/-- `Coord`, board.rs: a (row, col) pair.  Components are integers; a
negative component models a wrapped-around `usize` index, which is out of
range for every slice access. -/
structure Coord where
  row : Int
  col : Int
  deriving DecidableEq, Repr

/-- `Coord::new`. -/
def Coord.new (row col : Int) : Coord := ⟨row, col⟩

/-- `Coord::step` as used by turn.rs: move one cell along a direction,
returning the new coordinate with no bounds guarantee (spec section 3:
bounds are validated by the caller before dereferencing a cell). -/
def Coord.step (c : Coord) (d : Direction) : Coord :=
  ⟨c.row + d.dr, c.col + d.dc⟩

/-- The coordinate reached after `k` steps along `d`. -/
def Coord.stepN (c : Coord) (d : Direction) (k : Nat) : Coord :=
  ⟨c.row + k * d.dr, c.col + k * d.dc⟩

/-- Membership of `q` in the open ray from `o` along `d`: `q` is reached
from `o` by at least one step along `d`.  The eating loop for a direction
only ever touches cells of that direction's ray, and rays of distinct
directions from one origin are disjoint. -/
def onRay (o : Coord) (d : Direction) (q : Coord) : Prop :=
  ∃ k : Nat, 1 ≤ k ∧ q = o.stepN d k

/-- In-bounds predicate for the 8 by 8 board (`Coord::check_bounds` succeeds
and the components are genuine, non-wrapped indexes). -/
def Coord.inB (c : Coord) : Prop :=
  0 ≤ c.row ∧ c.row < 8 ∧ 0 ≤ c.col ∧ c.col < 8

instance (c : Coord) : Decidable c.inB := by
  unfold Coord.inB; infer_instance

/-- `Disk`, board.rs: a disk carries its side. -/
structure Disk where
  side : Side
  deriving DecidableEq, Repr

/-- `Disk::new`. -/
def Disk.new (s : Side) : Disk := ⟨s⟩

/-- `Disk::get_side`. -/
def Disk.get_side (d : Disk) : Side := d.side

/-- `Disk::flip`. -/
def Disk.flip (d : Disk) : Disk := ⟨d.side.opposite⟩

/-- `Cell`, board.rs: empty or occupied by a disk. -/
abbrev Cell := Option Disk

/-- `Board`, board.rs: an 8 by 8 array of cells, modelled as a list of rows.
The Rust type `[[Cell; 8]; 8]` fixes the shape; here the `Board.WF`
predicate states it. -/
structure Board where
  cells : List (List Cell)
  deriving DecidableEq, Repr

/-- The shape invariant carried by the Rust array type `[[Cell; 8]; 8]`. -/
def Board.WF (b : Board) : Prop :=
  b.cells.length = BOARD_SIZE ∧ ∀ r ∈ b.cells, r.length = BOARD_SIZE

instance (b : Board) : Decidable b.WF := by
  unfold Board.WF; infer_instance

/-- `slice.get(i)` for an index that may have wrapped below zero: a negative
index models a wrapped-around `usize`, always out of range. -/
def getIdx {α : Type} (l : List α) (i : Int) : Option α :=
  if 0 ≤ i then l.get? i.toNat else none

/-- `Board::get_cell`: bounds-checked read (board.rs lines 135-138). -/
def Board.get_cell (b : Board) (c : Coord) : Except ReversiError Cell :=
  match getIdx b.cells c.row with
  | none => .error .OutOfBoundCoord
  | some r =>
    match getIdx r c.col with
    | none => .error .OutOfBoundCoord
    | some cell => .ok cell

/-- The in-place write through `Board::get_mut_cell`; only ever invoked
after the same bounds check that `get_cell` performs has succeeded. -/
def Board.setCell (b : Board) (c : Coord) (cell : Cell) : Board :=
  ⟨b.cells.set c.row.toNat
    (((b.cells.get? c.row.toNat).getD []).set c.col.toNat cell)⟩

/-- `Board::flip_disk` (board.rs lines 156-165): toggle the disk on a
non-empty cell. -/
def Board.flip_disk (b : Board) (c : Coord) : Except ReversiError Board :=
  match b.get_cell c with
  | .error e => .error e
  | .ok none => .error .EmptyCell
  | .ok (some disk) => .ok (b.setCell c (some disk.flip))

/-- `Board::place_disk` (board.rs lines 168-174): write a new disk on an
empty cell. -/
def Board.place_disk (b : Board) (side : Side) (c : Coord) :
    Except ReversiError Board :=
  match b.get_cell c with
  | .error e => .error e
  | .ok (some _) => .error .CellAlreadyTaken
  | .ok none => .ok (b.setCell c (some (Disk.new side)))

/-- Models a Rust `.expect(...)` at call sites that are proved unreachable:
on error the receiver is returned unchanged. -/
def expectD {α : Type} (r : Except ReversiError α) (dflt : α) : α :=
  match r with
  | .ok a => a
  | .error _ => dflt

/-- `State`, turn.rs: `Some side` is running with `side` to move, `None` is
ended. -/
abbrev State := Option Side

/-- `Turn`, turn.rs: board, state and the two scores.  The scores are `u8`
in Rust; they are modelled as `Nat` with wrap-around applied at every
arithmetic update. -/
structure Turn where
  board : Board
  state : State
  score_dark : Nat
  score_light : Nat
  deriving DecidableEq, Repr

/-- `Turn::first_turn` (turn.rs lines 22-37): four central disks, Dark to
move, scores 2-2.  The `.expect` on the placement chain is modelled by
`expectD`. -/
def Turn.first_turn : Turn :=
  let b0 : Board := ⟨List.replicate BOARD_SIZE (List.replicate BOARD_SIZE (none : Cell))⟩
  let center : Int := (BOARD_SIZE : Int) / 2
  let b1 := expectD (b0.place_disk .Dark (Coord.new (center - 1) center)) b0
  let b2 := expectD (b1.place_disk .Dark (Coord.new center (center - 1))) b1
  let b3 := expectD (b2.place_disk .Light (Coord.new (center - 1) (center - 1))) b2
  let b4 := expectD (b3.place_disk .Light (Coord.new center center)) b3
  { board := b4, state := some .Dark, score_dark := 2, score_light := 2 }

/-- `Turn::get_board`. -/
def Turn.get_board (t : Turn) : Board := t.board

/-- `Turn::get_cell`. -/
def Turn.get_cell (t : Turn) (c : Coord) : Except ReversiError Cell :=
  t.board.get_cell c

/-- `Turn::get_state`. -/
def Turn.get_state (t : Turn) : State := t.state

/-- `Turn::is_end_state`. -/
def Turn.is_end_state (t : Turn) : Bool := t.state.isNone

/-- `Turn::get_score`. -/
def Turn.get_score (t : Turn) : Nat × Nat := (t.score_dark, t.score_light)

/-- `Turn::get_tempo`: the `u8` sum of the scores. -/
def Turn.get_tempo (t : Turn) : Nat := (t.score_light + t.score_dark) % 256

/-- The inner `while` of `Turn::check_move_along_direction`: keep stepping
while the cell holds a disk, succeeding at the first disk of `side`.  The
fuel bounds the walk; starting from an in-bounds origin, `BOARD_SIZE` steps
always suffice to reach a disk of `side`, an empty cell or the edge,
because each step moves some coordinate monotonically by one. -/
def scanSame (b : Board) (side : Side) (d : Direction) :
    Coord → Nat → Bool
  | _, 0 => false
  | c, fuel + 1 =>
    match b.get_cell c with
    | .ok (some disk) =>
      if disk.get_side = side then true
      else scanSame b side d (c.step d) fuel
    | _ => false

/-- `Turn::check_move_along_direction` (turn.rs lines 83-97): the adjacent
cell must hold an opposing disk and the run of opposing disks must be
terminated by a disk of `side`. -/
def Board.check_move_along_direction (b : Board) (coord : Coord)
    (d : Direction) (side : Side) : Bool :=
  let next := coord.step d
  match b.get_cell next with
  | .ok (some disk) =>
    if disk.get_side ≠ side then scanSame b side d (next.step d) BOARD_SIZE
    else false
  | _ => false

/-- The direction disjunction of `Turn::check_move` (turn.rs lines 119-128),
abstracted over the per-direction test `f`.  The row guards mirror the
`usize` range patterns `0...1`, `2...THIRD_TO_LAST` and `_`; the only call
site passes an in-bounds row. -/
def checkDirs (f : Direction → Bool) (row col : Int) : Bool :=
  if row ≤ 1 then
    f .South
      || (decide (2 ≤ col) && (f .West || f .SW))
      || (decide (col < 6) && (f .East || f .SE))
  else if row ≤ 5 then
    (f .North || f .South)
      || (decide (2 ≤ col) && (f .West || f .SW || f .NW))
      || (decide (col < 6) && (f .East || f .NE || f .SE))
  else
    f .North
      || (decide (2 ≤ col) && (f .West || f .NW))
      || (decide (col < 6) && (f .East || f .NE))

/-- `Turn::check_move` (turn.rs lines 101-136): `EndedGame` when ended, the
board read may fail `OutOfBoundCoord`, `CellAlreadyTaken` on an occupied
cell, then the pruned direction scan decides legal versus `IllegalMove`. -/
def Turn.check_move (t : Turn) (coord : Coord) : Except ReversiError Unit :=
  match t.state with
  | none => .error .EndedGame
  | some state_side =>
    match t.board.get_cell coord with
    | .error e => .error e
    | .ok (some _) => .error .CellAlreadyTaken
    | .ok none =>
      if checkDirs (fun d => t.board.check_move_along_direction coord d state_side)
          coord.row coord.col
      then .ok ()
      else .error .IllegalMove

/-- The edge filter on `DIRECTIONS` in `Turn::make_move` (turn.rs lines
146-150). -/
def moveDirs (coord : Coord) : List Direction :=
  DIRECTIONS.filter fun dir =>
    (decide (2 ≤ coord.row) || (dir ≠ .North && dir ≠ .NE && dir ≠ .NW))
      && (decide (coord.row < (BOARD_SIZE : Int) - 2)
          || (dir ≠ .South && dir ≠ .SE && dir ≠ .SW))
      && (decide (2 ≤ coord.col) || (dir ≠ .West && dir ≠ .NW && dir ≠ .SW))
      && (decide (coord.col < (BOARD_SIZE : Int) - 2)
          || (dir ≠ .East && dir ≠ .NE && dir ≠ .SE))

/-- The inner `while` of the eating loop in `Turn::make_move` (turn.rs lines
158-168): flip opposing disks while stepping, stopping with `legal := true`
at the first disk of the moving side, or stopping silently at an empty cell
or the edge.  Same fuel bound as `scanSame`.  The count of eaten disks is a
`u8` in Rust; at most 63 disks can ever be flipped in one move, so the
count never wraps and is modelled as a plain `Nat`. -/
def eatWhile (side : Side) (d : Direction) :
    Nat → Board → Coord → Nat → Bool → Board × Nat × Bool
  | 0, b, _, eating, legal => (b, eating, legal)
  | fuel + 1, b, c, eating, legal =>
    match b.get_cell c with
    | .ok (some disk) =>
      if disk.get_side ≠ side then
        eatWhile side d fuel (expectD (b.flip_disk c) b) (c.step d)
          (eating + 1) legal
      else (b, eating, true)
    | _ => (b, eating, legal)

/-- The body of the direction loop in `Turn::make_move` (turn.rs lines
151-169): when the direction qualifies, flip the adjacent disk (counting
it) and run the eating `while`. -/
def eatDirection (side : Side) (coord : Coord) (d : Direction) (b : Board)
    (eating : Nat) (legal : Bool) : Board × Nat × Bool :=
  if b.check_move_along_direction coord d side then
    let nc := coord.step d
    eatWhile side d BOARD_SIZE (expectD (b.flip_disk nc) b) (nc.step d)
      (eating + 1) legal
  else (b, eating, legal)

/-- The direction loop of `Turn::make_move`, folded over the filtered
direction list, threading board, eaten count and the `legal` flag. -/
def makeMoveLoop (side : Side) (coord : Coord) :
    List Direction → Board → Nat → Bool → Board × Nat × Bool
  | [], b, eating, legal => (b, eating, legal)
  | d :: ds, b, eating, legal =>
    let r := eatDirection side coord d b eating legal
    makeMoveLoop side coord ds r.1 r.2.1 r.2.2

/-- Wrapping `u8` subtraction, for the `score -= eating` updates. -/
def wsub8 (a b : Nat) : Nat := (a % 256 + 256 - b % 256) % 256

/-- The macro-generated per-cell test of `Turn::can_move` (turn.rs lines
225-240): the cell must be empty (the `.expect` never fires, every scanned
coordinate being a constant in range) and some direction of the pruned list
must qualify. -/
def canMoveAt (b : Board) (side : Side) (c : Coord)
    (dirs : List Direction) : Bool :=
  (expectD (b.get_cell c) none).isNone
    && dirs.any fun d => b.check_move_along_direction c d side

/-- The body of `Turn::can_move` (turn.rs lines 242-254) for a given side:
scan every cell, grouped into nine edge regions with per-region direction
lists, exactly as the source. -/
def canMoveSide (b : Board) (side : Side) : Bool :=
  (([6, 7] : List Int).any fun row =>
      (([6, 7] : List Int).any fun col =>
        canMoveAt b side ⟨row, col⟩ [.North, .West, .NW])
      || (([2, 3, 4, 5] : List Int).any fun col =>
        canMoveAt b side ⟨row, col⟩ [.North, .NE, .East, .West, .NW])
      || (([0, 1] : List Int).any fun col =>
        canMoveAt b side ⟨row, col⟩ [.North, .NE, .East]))
  || (([2, 3, 4, 5] : List Int).any fun row =>
      (([6, 7] : List Int).any fun col =>
        canMoveAt b side ⟨row, col⟩ [.North, .West, .South, .SW, .NW])
      || (([2, 3, 4, 5] : List Int).any fun col =>
        canMoveAt b side ⟨row, col⟩
          [.North, .NE, .East, .SE, .South, .SW, .West, .NW])
      || (([0, 1] : List Int).any fun col =>
        canMoveAt b side ⟨row, col⟩ [.North, .NE, .East, .SE, .South]))
  || (([0, 1] : List Int).any fun row =>
      (([6, 7] : List Int).any fun col =>
        canMoveAt b side ⟨row, col⟩ [.West, .South, .SW])
      || (([2, 3, 4, 5] : List Int).any fun col =>
        canMoveAt b side ⟨row, col⟩ [.East, .SE, .South, .SW, .West])
      || (([0, 1] : List Int).any fun col =>
        canMoveAt b side ⟨row, col⟩ [.East, .SE, .South]))

/-- `Turn::can_move` (turn.rs lines 222-258): false when ended, otherwise
the scan for the side to move. -/
def Turn.can_move (t : Turn) : Bool :=
  match t.state with
  | none => false
  | some state_side => canMoveSide t.board state_side

/-- `Turn::make_move` (turn.rs lines 141-210).  The occupancy check comes
first (propagating the board read error), then the ended check; the
direction loop flips and counts; on a legal move the new disk is placed,
the `u8` scores are updated with wrap-around, and the next state is
determined: full board ends the game, otherwise the opponent moves, else
the mover again, else the game ends. -/
def Turn.make_move (t : Turn) (coord : Coord) : Except ReversiError Turn :=
  match t.board.get_cell coord with
  | .error e => .error e
  | .ok (some _) => .error .CellAlreadyTaken
  | .ok none =>
    match t.state with
    | none => .error .EndedGame
    | some turn_side =>
      let r := makeMoveLoop turn_side coord (moveDirs coord) t.board 0 false
      if r.2.2 then
        let b2 := expectD (r.1.place_disk turn_side coord) r.1
        let sd :=
          match turn_side with
          | .Dark => (t.score_dark + r.2.1 + 1) % 256
          | .Light => wsub8 t.score_dark r.2.1
        let sl :=
          match turn_side with
          | .Dark => wsub8 t.score_light r.2.1
          | .Light => (t.score_light + r.2.1 + 1) % 256
        if (sl + sd) % 256 = NUM_CELLS % 256 then
          .ok { board := b2, state := none, score_dark := sd, score_light := sl }
        else
          let t1 : Turn :=
            { board := b2, state := some turn_side.opposite,
              score_dark := sd, score_light := sl }
          if t1.can_move then .ok t1
          else
            let t2 : Turn :=
              { board := b2, state := some turn_side,
                score_dark := sd, score_light := sl }
            if t2.can_move then .ok t2
            else .ok { board := b2, state := none,
                       score_dark := sd, score_light := sl }
      else .error .IllegalMove

/-- The turns reachable from `Turn::first_turn` by successful `make_move`
calls. -/
inductive Reachable : Turn → Prop where
  | first : Reachable Turn.first_turn
  | step {t t2 : Turn} {c : Coord} :
      Reachable t → t.make_move c = .ok t2 → Reachable t2

/-- `Game`, game.rs: current turn plus history.  The two player references
are external collaborators (spec section 6) and carry no state; they are
dropped from the model.  The history stack's top is the list head. -/
structure Game where
  current_turn : Turn
  turns_history : List (Turn × Coord)
  deriving DecidableEq, Repr

/-- `Game::new` (without the player references). -/
def Game.new : Game :=
  { current_turn := Turn.first_turn, turns_history := [] }

/-- `Game::make_move` (game.rs lines 101-104), the `Move` branch of
`play_turn`: the pair is pushed onto the history BEFORE `Turn::make_move`
runs, and is not popped when it fails.  Returns the updated game and the
propagated result. -/
def Game.make_move (g : Game) (coord : Coord) :
    Game × Except ReversiError Unit :=
  let g1 : Game :=
    { g with turns_history := (g.current_turn, coord) :: g.turns_history }
  match g1.current_turn.make_move coord with
  | .ok t => ({ g1 with current_turn := t }, .ok ())
  | .error e => (g1, .error e)

/-- The `while let Some(...) = pop()` search of `Game::undo`: pop entries
until one whose stored turn has state `some side`, returning it and the
remaining stack.  The source unwraps each popped state; every turn ever
pushed by `play_turn` is running, so the unwrap never fires there and an
ended entry is modelled as a non-match. -/
def popSearch (side : Side) :
    List (Turn × Coord) → Option (Turn × List (Turn × Coord))
  | [] => none
  | (t, _) :: rest =>
    if t.state = some side then some (t, rest) else popSearch side rest

/-- `Game::undo` (game.rs lines 107-133).  In the ended branch the first
entry is popped into `current_turn` before the search continues; on an
exhausted search only the history is restored from the backup, so the
reassigned `current_turn` survives the failure.  In the running branch
`current_turn` is written only on success. -/
def Game.undo (g : Game) : Game × Except ReversiError Unit :=
  let backup := g.turns_history
  match g.current_turn.get_state with
  | none =>
    match g.turns_history with
    | [] => (g, .error .NoUndo)
    | (t0, _) :: rest =>
      match t0.state with
      | some last_side =>
        match popSearch last_side.opposite rest with
        | some (t, rest2) =>
          ({ current_turn := t, turns_history := rest2 }, .ok ())
        | none =>
          ({ current_turn := t0, turns_history := backup }, .error .NoUndo)
      | none =>
        ({ current_turn := t0, turns_history := backup }, .error .NoUndo)
  | some current_side =>
    match popSearch current_side g.turns_history with
    | some (t, rest2) =>
      ({ current_turn := t, turns_history := rest2 }, .ok ())
    | none =>
      ({ g with turns_history := backup }, .error .NoUndo)

/-- The move choice of the test players (`FoolPlayer`, revtest/mod.rs): the
first coordinate, in row-major index order (lexicographic (row, col)
order), whose `check_move` succeeds. -/
def firstLegal (t : Turn) : Option Coord :=
  (List.range NUM_CELLS).findSome? fun idx =>
    let c : Coord := ⟨((idx / BOARD_SIZE : Nat) : Int), ((idx % BOARD_SIZE : Nat) : Int)⟩
    match t.check_move c with
    | .ok _ => some c
    | .error _ => none

/-- One self-play step: apply the lexicographically-first legal move, or
stop when the game has ended or no move is produced. -/
def foolStep (t : Turn) : Option Turn :=
  match t.state with
  | none => none
  | some _ =>
    match firstLegal t with
    | none => none
    | some c =>
      match t.make_move c with
      | .ok t2 => some t2
      | .error _ => none

/-- Iterated self-play from a turn, with the number of moves applied. -/
def foolTrace : Nat → Turn → Turn × Nat
  | 0, t => (t, 0)
  | n + 1, t =>
    match foolStep t with
    | none => (t, 0)
    | some t2 =>
      let r := foolTrace n t2
      (r.1, r.2 + 1)

/-- Number of cells of a board satisfying a predicate. -/
def countCellP (p : Cell → Bool) (b : Board) : Nat :=
  (b.cells.map fun r => r.countP p).sum

/-- Boolean equality test on sides. -/
def sideBeq : Side → Side → Bool
  | .Dark, .Dark => true
  | .Light, .Light => true
  | _, _ => false

/-- True when the cell holds a disk of the given side. -/
def isSideCell (s : Side) : Cell → Bool
  | none => false
  | some d => sideBeq d.get_side s

/-- Number of disks of a given side on a board. -/
def countSide (b : Board) (s : Side) : Nat :=
  countCellP (isSideCell s) b

/-- Number of occupied cells of a board. -/
def occupiedCount (b : Board) : Nat :=
  countCellP (fun cell => cell.isSome) b

/-- The error kind of a result, for comparing results of different value
types. -/
def errOf {α : Type} : Except ReversiError α → Option ReversiError
  | .ok _ => none
  | .error e => some e

/-- Per-cell effect of the eating loops: every cell reads the same as
before, or held an opposing disk that is now flipped to the moving side. -/
def FlipFrame (side : Side) (b b2 : Board) : Prop :=
  ∀ q : Coord, b2.get_cell q = b.get_cell q ∨
    ∃ disk : Disk, b.get_cell q = .ok (some disk) ∧
      disk.get_side = side.opposite ∧ b2.get_cell q = .ok (some disk.flip)

/-- Combined effect of an eating phase entered with count `e0` and flag
`l0`: the shape is preserved, the count grows by the number of flips, the
mover gains exactly the flipped disks, the opponent loses them, the
per-cell flip frame holds, and the `legal` flag is never reset. -/
def EatResult (side : Side) (b : Board) (e0 : Nat) (l0 : Bool)
    (r : Board × Nat × Bool) : Prop :=
  r.1.WF ∧ FlipFrame side b r.1 ∧ (l0 = true → r.2.2 = true) ∧
  ∃ k, r.2.1 = e0 + k ∧ countSide r.1 side = countSide b side + k ∧
    countSide b side.opposite = countSide r.1 side.opposite + k

/-- The inductive invariant of reachable turns: well-shaped board, scores
equal to the per-side disk counts, a running side always has a move, and an
ended game has either no moves for both sides or a full board. -/
def Inv (t : Turn) : Prop :=
  t.board.WF ∧ t.score_dark = countSide t.board .Dark ∧
  t.score_light = countSide t.board .Light ∧
  (∀ s, t.state = some s → canMoveSide t.board s = true) ∧
  (t.state = none →
    (canMoveSide t.board .Dark = false ∧ canMoveSide t.board .Light = false) ∨
      occupiedCount t.board = 64)

/-! ### Basic board access lemmas -/

theorem getIdx_nonneg {α : Type} (l : List α) {i : Int} (h : 0 ≤ i) :
    getIdx l i = l.get? i.toNat := if_pos h

theorem getIdx_neg {α : Type} (l : List α) {i : Int} (h : i < 0) :
    getIdx l i = none := if_neg (by omega)

theorem Board.get_cell_oob {b : Board} (hwf : b.WF) {c : Coord}
    (hr : 0 ≤ c.row) (hc : 0 ≤ c.col) (hor : 8 ≤ c.row ∨ 8 ≤ c.col) :
    b.get_cell c = .error .OutOfBoundCoord := by
  by_cases h8 : 8 ≤ c.row
  · have h1 : getIdx b.cells c.row = none := by
      rw [getIdx_nonneg _ hr]
      exact List.get?_eq_none.mpr (by rw [hwf.1]; unfold BOARD_SIZE; omega)
    unfold Board.get_cell
    simp only [h1]
  · have hlt : c.row.toNat < b.cells.length := by
      rw [hwf.1]; unfold BOARD_SIZE; omega
    have h1 : getIdx b.cells c.row = some (b.cells.get ⟨c.row.toNat, hlt⟩) := by
      rw [getIdx_nonneg _ hr]
      exact List.get?_eq_get hlt
    have hlen : (b.cells.get ⟨c.row.toNat, hlt⟩).length = BOARD_SIZE :=
      hwf.2 _ (List.get_mem ..)
    have h2 : getIdx (b.cells.get ⟨c.row.toNat, hlt⟩) c.col = none := by
      rw [getIdx_nonneg _ hc]
      exact List.get?_eq_none.mpr (by rw [hlen]; unfold BOARD_SIZE; omega)
    unfold Board.get_cell
    simp only [h1, h2]

/-! ### C10: out-of-bound coordinates -/

/-- C10: on a running turn, a coordinate with row or column at least 8 makes
both check_move and make_move fail with OutOfBoundCoord (the turn is a value
here, so failure returns no new turn): every board access goes through the
bounds-checked get_cell. -/
theorem c10_out_of_bound (t : Turn) (s : Side) (c : Coord)
    (hwf : t.board.WF) (hs : t.state = some s)
    (hr : 0 ≤ c.row) (hc : 0 ≤ c.col) (hor : 8 ≤ c.row ∨ 8 ≤ c.col) :
    t.check_move c = .error .OutOfBoundCoord ∧
      t.make_move c = .error .OutOfBoundCoord := by
  have hg := Board.get_cell_oob hwf hr hc hor
  constructor
  · unfold Turn.check_move
    rw [hs, hg]
  · unfold Turn.make_move
    rw [hg]

/-- Witness for C10 at the first turn and coordinate (8, 0). -/
theorem c10_witness :
    Turn.first_turn.check_move (Coord.new 8 0) = .error .OutOfBoundCoord ∧
      Turn.first_turn.make_move (Coord.new 8 0) = .error .OutOfBoundCoord :=
  c10_out_of_bound Turn.first_turn .Dark (Coord.new 8 0) (by decide)
    (by decide) (by decide) (by decide) (by decide)

/-! ### C2: legal opening moves -/

/-- C2: from the first turn, check_move succeeds exactly at the 0-indexed
coordinates (2,3), (3,2), (4,5) and (5,4), failing everywhere else on the
8 by 8 board. -/
theorem c2_opening_moves :
    ∀ r c : Fin 8,
      Turn.first_turn.check_move ⟨(r : Int), (c : Int)⟩ = .ok () ↔
        ((r.val = 2 ∧ c.val = 3) ∨ (r.val = 3 ∧ c.val = 2) ∨
          (r.val = 4 ∧ c.val = 5) ∨ (r.val = 5 ∧ c.val = 4)) := by
  decide

/-! ### C5: history is pushed before validation -/

/-- C5 (failing input): on a fresh game, processing Move (0,0) makes
Turn::make_move fail with IllegalMove, yet the (turn, coord) pair pushed
before validation stays in the history while the current turn is unchanged;
the claimed all-or-nothing behaviour does not hold. -/
theorem c5_push_survives_failure :
    (Game.new.make_move (Coord.new 0 0)).2 = .error .IllegalMove ∧
      (Game.new.make_move (Coord.new 0 0)).1.turns_history =
        [(Turn.first_turn, Coord.new 0 0)] ∧
      (Game.new.make_move (Coord.new 0 0)).1.current_turn = Turn.first_turn := by
  decide

/-! ### C7: failed undo from an ended state leaks the popped turn -/

/-- C7 (failing input): a game in the ended state whose single history entry
holds a Dark-to-move turn.  The undo attempt fails with NoUndo and restores
the history, but the current turn has been replaced by the popped entry:
the failure is observable, contradicting the claimed full backup/restore. -/
theorem c7_failed_undo_mutates :
    (({ current_turn := { Turn.first_turn with state := none },
        turns_history := [(Turn.first_turn, Coord.new 2 3)] } : Game).undo).2 =
          .error .NoUndo ∧
      (({ current_turn := { Turn.first_turn with state := none },
          turns_history := [(Turn.first_turn, Coord.new 2 3)] } : Game).undo).1.turns_history =
        [(Turn.first_turn, Coord.new 2 3)] ∧
      (({ current_turn := { Turn.first_turn with state := none },
          turns_history := [(Turn.first_turn, Coord.new 2 3)] } : Game).undo).1.current_turn =
        Turn.first_turn ∧
      ¬ (({ current_turn := { Turn.first_turn with state := none },
            turns_history := [(Turn.first_turn, Coord.new 2 3)] } : Game).undo).1.current_turn =
          { Turn.first_turn with state := none } := by
  decide

/-! ### C6: undo lands at the undoing side's previous decision point -/

/-- C6 (counterexample): after the single applied move (2,3) on a fresh
game, the claim says undo restores the pre-move first turn; instead the
undo fails with NoUndo and the current turn, which is not the first turn,
is unchanged. -/
theorem c6_counterexample :
    ((Game.new.make_move (Coord.new 2 3)).1.undo).2 = .error .NoUndo ∧
      ((Game.new.make_move (Coord.new 2 3)).1.undo).1.current_turn =
        (Game.new.make_move (Coord.new 2 3)).1.current_turn ∧
      ¬ (Game.new.make_move (Coord.new 2 3)).1.current_turn = Turn.first_turn := by
  decide

/-- C6 (amended): undo immediately after an applied move restores the most
recent history turn whose side to move equals the side now undoing.  When
the move handed the turn back to the mover (forced pass back), that is
exactly the turn held immediately before the move; otherwise the entry of
that move is skipped and the search continues in the older history, failing
with NoUndo, with the game left unchanged, when no entry qualifies. -/
theorem c6_amended (g g1 : Game) (coord : Coord) (s0 s1 : Side)
    (h0 : g.current_turn.state = some s0)
    (hmv : g.make_move coord = (g1, .ok ()))
    (h1 : g1.current_turn.state = some s1) :
    (s1 = s0 →
      g1.undo = ({ current_turn := g.current_turn,
                   turns_history := g.turns_history }, .ok ())) ∧
    (s1 ≠ s0 →
      g1.undo =
        match popSearch s1 g.turns_history with
        | some (t, rest) => ({ current_turn := t, turns_history := rest }, .ok ())
        | none => (g1, .error .NoUndo)) := by
  rcases hok : g.current_turn.make_move coord with e | t2
  · exfalso
    simp only [Game.make_move, hok] at hmv
    exact absurd (congrArg Prod.snd hmv) (by simp)
  simp only [Game.make_move, hok, Prod.mk.injEq] at hmv
  obtain ⟨hg1, -⟩ := hmv
  subst hg1
  have h1s : t2.state = some s1 := h1
  simp only [Game.undo, Turn.get_state, h1s]
  have hpop : popSearch s1 ((g.current_turn, coord) :: g.turns_history) =
      if g.current_turn.state = some s1 then some (g.current_turn, g.turns_history)
      else popSearch s1 g.turns_history := rfl
  constructor
  · intro hEq
    subst hEq
    rw [hpop, if_pos h0]
  · intro hNe
    have hne2 : ¬ (g.current_turn.state = some s1) := by
      rw [h0]
      intro hcon
      exact hNe (Option.some.inj hcon).symm
    rw [hpop, if_neg hne2]

/-- Witness for the amended C6: the game after move (2,3), with Light to
move and a history with no Light entry, fails undo with NoUndo. -/
theorem c6_amended_witness :
    ((Side.Light = Side.Dark →
      (Game.new.make_move (Coord.new 2 3)).1.undo =
        ({ current_turn := Game.new.current_turn,
           turns_history := Game.new.turns_history }, .ok ())) ∧
    (Side.Light ≠ Side.Dark →
      (Game.new.make_move (Coord.new 2 3)).1.undo =
        match popSearch Side.Light Game.new.turns_history with
        | some (t, rest) => ({ current_turn := t, turns_history := rest }, .ok ())
        | none => ((Game.new.make_move (Coord.new 2 3)).1, .error .NoUndo))) :=
  c6_amended Game.new (Game.new.make_move (Coord.new 2 3)).1 (Coord.new 2 3)
    .Dark .Light (by decide) (by decide) (by decide)

/-! ### C9: fool self-play terminates -/

/-- C9: self-play by the lexicographically-first legal coordinate, started
from the first turn, ends with the game in the ended state after at most 64
applied moves (here: exactly 60). -/
theorem c9_fool_game_ends :
    (foolTrace 64 Turn.first_turn).1.state = none ∧
      (foolTrace 64 Turn.first_turn).2 ≤ 64 := by
  decide

/-! ### C4 counterexample: diverging error kinds on an ended turn -/

/-! ### Side and disk algebra -/

theorem Side.opposite_opposite (s : Side) : s.opposite.opposite = s := by
  cases s <;> rfl

theorem Side.opposite_ne (s : Side) : s.opposite ≠ s := by
  cases s <;> decide

theorem Side.eq_opposite_of_ne {a b : Side} (h : a ≠ b) : a = b.opposite := by
  cases a <;> cases b <;> first | rfl | exact absurd rfl h

theorem Disk.flip_get_side (d : Disk) : d.flip.get_side = d.get_side.opposite := rfl

/-! ### List counting lemmas -/

theorem countP_set_aux {α : Type} (p : α → Bool) :
    ∀ (l : List α) (n : Nat) (a x : α), l.get? n = some x →
      (l.set n a).countP p + (if p x then 1 else 0) =
        l.countP p + (if p a then 1 else 0) := by
  intro l
  induction l with
  | nil => intro n a x h; simp at h
  | cons hd tl ih =>
    intro n a x h
    cases n with
    | zero =>
      simp only [List.get?] at h
      obtain rfl : hd = x := Option.some.inj h
      simp only [List.set_cons_zero, List.countP_cons]
      omega
    | succ m =>
      simp only [List.get?] at h
      have := ih m a x h
      simp only [List.set_cons_succ, List.countP_cons]
      omega

theorem map_sum_set {α : Type} (f : α → Nat) :
    ∀ (l : List α) (n : Nat) (a x : α), l.get? n = some x →
      ((l.set n a).map f).sum + f x = (l.map f).sum + f a := by
  intro l
  induction l with
  | nil => intro n a x h; simp at h
  | cons hd tl ih =>
    intro n a x h
    cases n with
    | zero =>
      simp only [List.get?] at h
      obtain rfl : hd = x := Option.some.inj h
      simp only [List.set_cons_zero, List.map_cons, List.sum_cons]
      omega
    | succ m =>
      simp only [List.get?] at h
      have := ih m a x h
      simp only [List.set_cons_succ, List.map_cons, List.sum_cons]
      omega

theorem sideBeq_refl (s : Side) : sideBeq s s = true := by
  cases s <;> rfl

theorem sideBeq_opp (s : Side) : sideBeq s.opposite s = false := by
  cases s <;> rfl

theorem sideBeq_opp2 (s : Side) : sideBeq s s.opposite = false := by
  cases s <;> rfl

theorem countP_cell_split :
    ∀ l : List Cell,
      l.countP (fun cell => cell.isSome) =
        l.countP (isSideCell .Dark) + l.countP (isSideCell .Light) := by
  intro l
  induction l with
  | nil => rfl
  | cons hd tl ih =>
    rcases hd with - | ⟨⟨s⟩⟩
    · simp [List.countP_cons, ih, isSideCell]
    · cases s <;>
        simp [List.countP_cons, ih, isSideCell, sideBeq, Disk.get_side] <;>
        omega

theorem rows_sum_split :
    ∀ rows : List (List Cell),
      (rows.map fun r => r.countP fun cell => cell.isSome).sum =
        (rows.map fun r => r.countP (isSideCell .Dark)).sum +
          (rows.map fun r => r.countP (isSideCell .Light)).sum := by
  intro rows
  induction rows with
  | nil => rfl
  | cons r rows ih =>
    simp only [List.map_cons, List.sum_cons, ih, countP_cell_split r]
    omega

theorem occupied_split (b : Board) :
    occupiedCount b = countSide b .Dark + countSide b .Light := by
  unfold occupiedCount countSide countCellP
  exact rows_sum_split b.cells

theorem rows_sum_le :
    ∀ rows : List (List Cell), (∀ r ∈ rows, r.length = BOARD_SIZE) →
      ∀ p : Cell → Bool, (rows.map fun r => r.countP p).sum ≤ 8 * rows.length := by
  intro rows
  induction rows with
  | nil => intro _ p; simp
  | cons r rows ih =>
    intro h p
    have h1 : r.countP p ≤ 8 := by
      have hlen : r.countP p ≤ r.length := List.countP_le_length p
      rw [h r (by simp)] at hlen
      exact hlen
    have h2 := ih (fun r2 hr2 => h r2 (by simp [hr2])) p
    simp only [List.map_cons, List.sum_cons, List.length_cons]
    omega

theorem countCellP_le_64 (p : Cell → Bool) {b : Board} (hwf : b.WF) :
    countCellP p b ≤ 64 := by
  have := rows_sum_le b.cells hwf.2 p
  rw [hwf.1] at this
  unfold countCellP
  unfold BOARD_SIZE at this
  omega

/-! ### Board anatomy and setCell lemmas -/

theorem Board.get_cell_inB {b : Board} (hwf : b.WF) {c : Coord} {cell : Cell}
    (h : b.get_cell c = .ok cell) : c.inB := by
  unfold Board.get_cell at h
  rcases hrow : getIdx b.cells c.row with - | row
  · simp only [hrow] at h
    exact absurd h (by simp)
  · simp only [hrow] at h
    rcases hcol : getIdx row c.col with - | cell2
    · simp only [hcol] at h
      exact absurd h (by simp)
    · unfold getIdx at hrow hcol
      by_cases h0r : (0 : Int) ≤ c.row
      swap
      · rw [if_neg h0r] at hrow; exact absurd hrow (by simp)
      by_cases h0c : (0 : Int) ≤ c.col
      swap
      · rw [if_neg h0c] at hcol; exact absurd hcol (by simp)
      rw [if_pos h0r] at hrow
      rw [if_pos h0c] at hcol
      have hr := (List.get?_eq_some.mp hrow).1
      have hc := (List.get?_eq_some.mp hcol).1
      have hrl : row.length = BOARD_SIZE := hwf.2 _ (List.get?_mem hrow)
      rw [hwf.1] at hr
      rw [hrl] at hc
      unfold BOARD_SIZE at hr hc
      exact ⟨h0r, by omega, h0c, by omega⟩

theorem Board.get_cell_anatomy {b : Board} (hwf : b.WF) {c : Coord} (hin : c.inB) :
    ∃ row cell, b.cells.get? c.row.toNat = some row ∧ row.length = BOARD_SIZE ∧
      row.get? c.col.toNat = some cell ∧ b.get_cell c = .ok cell := by
  obtain ⟨h0r, hr8, h0c, hc8⟩ := hin
  have hrlt : c.row.toNat < b.cells.length := by
    rw [hwf.1]; unfold BOARD_SIZE; omega
  obtain ⟨row, hrow⟩ : ∃ row, b.cells.get? c.row.toNat = some row :=
    ⟨_, List.get?_eq_get hrlt⟩
  have hrl : row.length = BOARD_SIZE := hwf.2 _ (List.get?_mem hrow)
  have hclt : c.col.toNat < row.length := by
    rw [hrl]; unfold BOARD_SIZE; omega
  obtain ⟨cell, hcell⟩ : ∃ cell, row.get? c.col.toNat = some cell :=
    ⟨_, List.get?_eq_get hclt⟩
  refine ⟨row, cell, hrow, hrl, hcell, ?_⟩
  have g1 : getIdx b.cells c.row = some row := by
    rw [getIdx_nonneg _ h0r]; exact hrow
  have g2 : getIdx row c.col = some cell := by
    rw [getIdx_nonneg _ h0c]; exact hcell
  unfold Board.get_cell
  simp only [g1, g2]

theorem Board.setCell_cells {b : Board} {c : Coord} {row : List Cell}
    (hrow : b.cells.get? c.row.toNat = some row) (x : Cell) :
    (b.setCell c x).cells =
      b.cells.set c.row.toNat (row.set c.col.toNat x) := by
  unfold Board.setCell
  rw [hrow]
  rfl

theorem Board.WF_setCell {b : Board} (hwf : b.WF) {c : Coord} (hin : c.inB)
    (x : Cell) : (b.setCell c x).WF := by
  obtain ⟨row, cell, hrow, hrl, hcol, hget⟩ := Board.get_cell_anatomy hwf hin
  rw [Board.WF, Board.setCell_cells hrow]
  constructor
  · rw [List.length_set]; exact hwf.1
  · intro r hr
    obtain ⟨n, hn⟩ := List.mem_iff_get?.mp hr
    by_cases hne : n = c.row.toNat
    · subst hne
      have hlt : c.row.toNat < b.cells.length := (List.get?_eq_some.mp hrow).1
      rw [List.get?_set_eq_of_lt _ hlt] at hn
      obtain rfl : row.set c.col.toNat x = r := Option.some.inj hn
      rw [List.length_set]
      exact hrl
    · rw [List.get?_set_ne _ _ (fun hcon => hne hcon.symm)] at hn
      exact hwf.2 _ (List.get?_mem hn)

theorem Board.get_cell_setCell_self {b : Board} (hwf : b.WF) {c : Coord}
    (hin : c.inB) (x : Cell) : (b.setCell c x).get_cell c = .ok x := by
  obtain ⟨row, cell, hrow, hrl, hcol, hget⟩ := Board.get_cell_anatomy hwf hin
  have hrlt : c.row.toNat < b.cells.length := (List.get?_eq_some.mp hrow).1
  have hclt : c.col.toNat < row.length := (List.get?_eq_some.mp hcol).1
  have g1 : getIdx (b.setCell c x).cells c.row = some (row.set c.col.toNat x) := by
    rw [getIdx_nonneg _ hin.1, Board.setCell_cells hrow,
      List.get?_set_eq_of_lt _ hrlt]
  have g2 : getIdx (row.set c.col.toNat x) c.col = some x := by
    rw [getIdx_nonneg _ hin.2.2.1, List.get?_set_eq_of_lt _ hclt]
  unfold Board.get_cell
  simp only [g1, g2]

theorem Board.get_cell_setCell_other {b : Board} (hwf : b.WF) {c : Coord}
    (hin : c.inB) (x : Cell) {q : Coord} (hne : q ≠ c) :
    (b.setCell c x).get_cell q = b.get_cell q := by
  obtain ⟨row, cell, hrow, hrl, hcol, hget⟩ := Board.get_cell_anatomy hwf hin
  obtain ⟨hc0r, hcr8, hc0c, hcc8⟩ := id hin
  by_cases hq0 : (0 : Int) ≤ q.row
  swap
  · have g1 : getIdx (b.setCell c x).cells q.row = none := getIdx_neg _ (by omega)
    have g2 : getIdx b.cells q.row = none := getIdx_neg _ (by omega)
    unfold Board.get_cell
    simp only [g1, g2]
  by_cases hqr : q.row = c.row
  · -- same row: the column must differ
    have hqc : q.col ≠ c.col := by
      intro hcon
      exact hne (by cases q; cases c; simp_all)
    have hrlt : c.row.toNat < b.cells.length := (List.get?_eq_some.mp hrow).1
    have g1 : getIdx (b.setCell c x).cells q.row = some (row.set c.col.toNat x) := by
      rw [hqr, getIdx_nonneg _ hin.1, Board.setCell_cells hrow,
        List.get?_set_eq_of_lt _ hrlt]
    have g1b : getIdx b.cells q.row = some row := by
      rw [hqr, getIdx_nonneg _ hin.1]; exact hrow
    by_cases hc0 : (0 : Int) ≤ q.col
    · have g2 : getIdx (row.set c.col.toNat x) q.col = getIdx row q.col := by
        rw [getIdx_nonneg _ hc0, getIdx_nonneg _ hc0]
        exact List.get?_set_ne _ _ (by omega)
      unfold Board.get_cell
      simp only [g1, g1b, g2]
    · have g2 : getIdx (row.set c.col.toNat x) q.col = none := getIdx_neg _ (by omega)
      have g2b : getIdx row q.col = none := getIdx_neg _ (by omega)
      unfold Board.get_cell
      simp only [g1, g1b, g2, g2b]
  · have g1 : getIdx (b.setCell c x).cells q.row = getIdx b.cells q.row := by
      rw [getIdx_nonneg _ hq0, getIdx_nonneg _ hq0, Board.setCell_cells hrow]
      exact List.get?_set_ne _ _ (by omega)
    unfold Board.get_cell
    rw [g1]

theorem countCellP_setCell (p : Cell → Bool) {b : Board} (hwf : b.WF)
    {c : Coord} (hin : c.inB) {cell0 : Cell}
    (hc : b.get_cell c = .ok cell0) (x : Cell) :
    countCellP p (b.setCell c x) + (if p cell0 then 1 else 0) =
      countCellP p b + (if p x then 1 else 0) := by
  obtain ⟨row, cell, hrow, hrl, hcol, hget⟩ := Board.get_cell_anatomy hwf hin
  obtain rfl : cell = cell0 := by
    rw [hget] at hc; exact Except.ok.inj hc
  have h1 := map_sum_set (fun r => r.countP p) b.cells c.row.toNat
    (row.set c.col.toNat x) row hrow
  simp only [] at h1
  have h2 := countP_set_aux p row c.col.toNat x cell hcol
  unfold countCellP
  rw [Board.setCell_cells hrow]
  omega

/-- C4 (counterexample): on an ended turn whose cell (3,4) is occupied,
check_move fails with EndedGame but make_move fails with CellAlreadyTaken:
the two validations run their predicates in different orders, so the error
kinds diverge, refuting the claim that both always fail alike. -/
theorem c4_counterexample :
    ({ Turn.first_turn with state := none } : Turn).check_move (Coord.new 3 4) =
        .error .EndedGame ∧
      ({ Turn.first_turn with state := none } : Turn).make_move (Coord.new 3 4) =
        .error .CellAlreadyTaken := by
  decide

/-! ### Per-flip and per-placement counting -/

theorem countSide_flip {b : Board} (hwf : b.WF) {c : Coord} {disk : Disk}
    (hc : b.get_cell c = .ok (some disk)) {side : Side}
    (hs : disk.get_side = side.opposite) :
    countSide (b.setCell c (some disk.flip)) side = countSide b side + 1 ∧
      countSide b side.opposite =
        countSide (b.setCell c (some disk.flip)) side.opposite + 1 := by
  have hin := Board.get_cell_inB hwf hc
  have h1 := countCellP_setCell (isSideCell side) hwf hin hc (some disk.flip)
  have h2 := countCellP_setCell (isSideCell side.opposite) hwf hin hc (some disk.flip)
  have v1 : isSideCell side (some disk) = false := by
    simp [isSideCell, hs, sideBeq_opp]
  have v2 : isSideCell side (some disk.flip) = true := by
    simp [isSideCell, Disk.flip_get_side, hs, Side.opposite_opposite, sideBeq_refl]
  have v3 : isSideCell side.opposite (some disk) = true := by
    simp [isSideCell, hs, sideBeq_refl]
  have v4 : isSideCell side.opposite (some disk.flip) = false := by
    simp [isSideCell, Disk.flip_get_side, hs, Side.opposite_opposite, sideBeq_opp2]
  rw [v1, v2] at h1
  rw [v3, v4] at h2
  simp at h1 h2
  unfold countSide
  constructor <;> omega

theorem countSide_place {b : Board} (hwf : b.WF) {c : Coord}
    (hc : b.get_cell c = .ok none) (side : Side) :
    countSide (b.setCell c (some (Disk.new side))) side = countSide b side + 1 ∧
      countSide (b.setCell c (some (Disk.new side))) side.opposite =
        countSide b side.opposite := by
  have hin := Board.get_cell_inB hwf hc
  have h1 := countCellP_setCell (isSideCell side) hwf hin hc (some (Disk.new side))
  have h2 := countCellP_setCell (isSideCell side.opposite) hwf hin hc
    (some (Disk.new side))
  have v1 : isSideCell side (none : Cell) = false := rfl
  have v2 : isSideCell side (some (Disk.new side)) = true := by
    simp [isSideCell, Disk.new, Disk.get_side, sideBeq_refl]
  have v3 : isSideCell side.opposite (none : Cell) = false := rfl
  have v4 : isSideCell side.opposite (some (Disk.new side)) = false := by
    simp [isSideCell, Disk.new, Disk.get_side, sideBeq_opp2]
  rw [v1, v2] at h1
  rw [v3, v4] at h2
  simp at h1 h2
  unfold countSide
  constructor <;> omega

/-! ### The eating loops and their combined effect -/

theorem flip_disk_ok {b : Board} {c : Coord} {disk : Disk}
    (hc : b.get_cell c = .ok (some disk)) :
    b.flip_disk c = .ok (b.setCell c (some disk.flip)) := by
  unfold Board.flip_disk
  simp only [hc]

theorem expectD_flip {b : Board} {c : Coord} {disk : Disk}
    (hc : b.get_cell c = .ok (some disk)) :
    expectD (b.flip_disk c) b = b.setCell c (some disk.flip) := by
  rw [flip_disk_ok hc]
  rfl

theorem place_disk_ok {b : Board} {side : Side} {c : Coord}
    (hc : b.get_cell c = .ok none) :
    b.place_disk side c = .ok (b.setCell c (some (Disk.new side))) := by
  unfold Board.place_disk
  simp only [hc]

theorem expectD_place {b : Board} {side : Side} {c : Coord}
    (hc : b.get_cell c = .ok none) :
    expectD (b.place_disk side c) b = b.setCell c (some (Disk.new side)) := by
  rw [place_disk_ok hc]
  rfl

theorem EatResult_base {side : Side} {b : Board} {e0 : Nat} {l0 : Bool}
    (hwf : b.WF) : EatResult side b e0 l0 (b, e0, l0) :=
  ⟨hwf, fun _ => Or.inl rfl, fun h => h, 0, rfl, rfl, rfl⟩

theorem EatResult_base_true {side : Side} {b : Board} {e0 : Nat} {l0 : Bool}
    (hwf : b.WF) : EatResult side b e0 l0 (b, e0, true) :=
  ⟨hwf, fun _ => Or.inl rfl, fun _ => rfl, 0, rfl, rfl, rfl⟩

theorem EatResult.step {side : Side} {b : Board} {e0 : Nat} {l0 : Bool}
    {r1 r2 : Board × Nat × Bool} (h1 : EatResult side b e0 l0 r1)
    (h2 : EatResult side r1.1 r1.2.1 r1.2.2 r2) :
    EatResult side b e0 l0 r2 := by
  obtain ⟨hw1, hf1, hl1, k1, he1, hc1, hd1⟩ := h1
  obtain ⟨hw2, hf2, hl2, k2, he2, hc2, hd2⟩ := h2
  refine ⟨hw2, ?_, fun h => hl2 (hl1 h), k1 + k2, by omega, by omega, by omega⟩
  intro q
  rcases hf2 q with heq | ⟨disk2, hb1, hs2, hr⟩
  · rcases hf1 q with heq1 | ⟨disk, hb, hs1, hb1q⟩
    · exact Or.inl (heq.trans heq1)
    · exact Or.inr ⟨disk, hb, hs1, heq.trans hb1q⟩
  · rcases hf1 q with heq1 | ⟨disk, hb, hs1, hb1q⟩
    · exact Or.inr ⟨disk2, heq1 ▸ hb1, hs2, hr⟩
    · exfalso
      rw [hb1q] at hb1
      have hdd : disk.flip = disk2 := Option.some.inj (Except.ok.inj hb1)
      rw [← hdd, Disk.flip_get_side, hs1, Side.opposite_opposite] at hs2
      exact Side.opposite_ne side hs2.symm

theorem EatResult_flip {side : Side} {b : Board} {c : Coord} {disk : Disk}
    {e0 : Nat} {l0 : Bool} (hwf : b.WF) (hc : b.get_cell c = .ok (some disk))
    (hs : disk.get_side ≠ side) :
    EatResult side b e0 l0 (b.setCell c (some disk.flip), e0 + 1, l0) := by
  have hso : disk.get_side = side.opposite := Side.eq_opposite_of_ne hs
  have hin := Board.get_cell_inB hwf hc
  obtain ⟨hcount1, hcount2⟩ := countSide_flip hwf hc hso
  refine ⟨Board.WF_setCell hwf hin _, ?_, fun h => h, 1, rfl, ?_, ?_⟩
  · intro q
    by_cases hq : q = c
    · subst hq
      exact Or.inr ⟨disk, hc, hso, Board.get_cell_setCell_self hwf hin _⟩
    · exact Or.inl (Board.get_cell_setCell_other hwf hin _ hq)
  · exact hcount1
  · exact hcount2

theorem eatWhile_spec (side : Side) (d : Direction) :
    ∀ (fuel : Nat) (b : Board) (c : Coord) (e0 : Nat) (l0 : Bool), b.WF →
      EatResult side b e0 l0 (eatWhile side d fuel b c e0 l0) := by
  intro fuel
  induction fuel with
  | zero => intro b c e0 l0 hwf; exact EatResult_base hwf
  | succ n ih =>
    intro b c e0 l0 hwf
    rcases hc : b.get_cell c with e | cell
    · have hstep : eatWhile side d (n + 1) b c e0 l0 = (b, e0, l0) := by
        simp [eatWhile, hc]
      rw [hstep]
      exact EatResult_base hwf
    · rcases cell with - | disk
      · have hstep : eatWhile side d (n + 1) b c e0 l0 = (b, e0, l0) := by
          simp [eatWhile, hc]
        rw [hstep]
        exact EatResult_base hwf
      · by_cases hs : disk.get_side = side
        · have hstep : eatWhile side d (n + 1) b c e0 l0 = (b, e0, true) := by
            simp [eatWhile, hc, hs]
          rw [hstep]
          exact EatResult_base_true hwf
        · have hstep : eatWhile side d (n + 1) b c e0 l0 =
              eatWhile side d n (b.setCell c (some disk.flip)) (c.step d)
                (e0 + 1) l0 := by
            simp [eatWhile, hc, hs, expectD_flip hc]
          rw [hstep]
          exact EatResult.step (EatResult_flip hwf hc hs)
            (ih _ _ _ _ (Board.WF_setCell hwf (Board.get_cell_inB hwf hc) _))

theorem check_along_destruct {b : Board} {coord : Coord} {d : Direction}
    {side : Side} (h : b.check_move_along_direction coord d side = true) :
    ∃ disk, b.get_cell (coord.step d) = .ok (some disk) ∧
      disk.get_side ≠ side ∧
      scanSame b side d ((coord.step d).step d) BOARD_SIZE = true := by
  unfold Board.check_move_along_direction at h
  rcases hadj : b.get_cell (coord.step d) with e | cell
  · simp only [hadj] at h
    exact absurd h (by simp)
  · rcases cell with - | disk
    · simp only [hadj] at h
      exact absurd h (by simp)
    · simp only [hadj] at h
      by_cases hs : disk.get_side = side
      · rw [if_neg (not_not_intro hs)] at h
        exact absurd h (by simp)
      · rw [if_pos hs] at h
        exact ⟨disk, rfl, hs, h⟩

theorem eatDirection_spec {side : Side} {coord : Coord} {d : Direction}
    {b : Board} {e0 : Nat} {l0 : Bool} (hwf : b.WF) :
    EatResult side b e0 l0 (eatDirection side coord d b e0 l0) := by
  by_cases hck : b.check_move_along_direction coord d side = true
  · obtain ⟨disk, hadj, hs, -⟩ := check_along_destruct hck
    have hred : eatDirection side coord d b e0 l0 =
        eatWhile side d BOARD_SIZE (expectD (b.flip_disk (coord.step d)) b)
          ((coord.step d).step d) (e0 + 1) l0 := by
      simp [eatDirection, hck]
    rw [hred, expectD_flip hadj]
    exact EatResult.step (EatResult_flip hwf hadj hs)
      (eatWhile_spec side d BOARD_SIZE _ _ _ _
        (Board.WF_setCell hwf (Board.get_cell_inB hwf hadj) _))
  · have hred : eatDirection side coord d b e0 l0 = (b, e0, l0) := by
      simp [eatDirection, hck]
    rw [hred]
    exact EatResult_base hwf

theorem makeMoveLoop_spec (side : Side) (coord : Coord) :
    ∀ (ds : List Direction) (b : Board) (e0 : Nat) (l0 : Bool), b.WF →
      EatResult side b e0 l0 (makeMoveLoop side coord ds b e0 l0) := by
  intro ds
  induction ds with
  | nil => intro b e0 l0 hwf; exact EatResult_base hwf
  | cons dd ds ih =>
    intro b e0 l0 hwf
    have h1 : EatResult side b e0 l0 (eatDirection side coord dd b e0 l0) :=
      eatDirection_spec hwf
    exact EatResult.step h1 (ih _ _ _ h1.1)

theorem loop_keeps_empty (side : Side) {c : Coord} {b : Board} (hwf : b.WF)
    (hcell : b.get_cell c = .ok none) :
    (makeMoveLoop side c (moveDirs c) b 0 false).1.get_cell c = .ok none := by
  obtain ⟨-, hframe, -, -, -, -, -⟩ := makeMoveLoop_spec side c (moveDirs c) b 0 false hwf
  rcases hframe c with heq | ⟨disk, hb, -, -⟩
  · rw [heq, hcell]
  · rw [hcell] at hb
    exact absurd (Except.ok.inj hb) (by simp)

/-! ### Dissecting a successful make_move -/

theorem make_move_ok_destruct {t : Turn} {c : Coord} {t2 : Turn}
    (hwf : t.board.WF) (h : t.make_move c = .ok t2) :
    ∃ side,
      t.state = some side ∧
      t.board.get_cell c = .ok none ∧
      (makeMoveLoop side c (moveDirs c) t.board 0 false).2.2 = true ∧
      t2.board = ((makeMoveLoop side c (moveDirs c) t.board 0 false).1).setCell c
        (some (Disk.new side)) ∧
      (side = .Dark →
        t2.score_dark = (t.score_dark + (makeMoveLoop side c (moveDirs c) t.board 0 false).2.1 + 1) % 256 ∧
        t2.score_light = wsub8 t.score_light (makeMoveLoop side c (moveDirs c) t.board 0 false).2.1) ∧
      (side = .Light →
        t2.score_light = (t.score_light + (makeMoveLoop side c (moveDirs c) t.board 0 false).2.1 + 1) % 256 ∧
        t2.score_dark = wsub8 t.score_dark (makeMoveLoop side c (moveDirs c) t.board 0 false).2.1) ∧
      ((t2.state = none ∧ (t2.score_light + t2.score_dark) % 256 = 64) ∨
        (t2.state = some side.opposite ∧ canMoveSide t2.board side.opposite = true) ∨
        (t2.state = some side ∧ canMoveSide t2.board side = true) ∨
        (t2.state = none ∧ canMoveSide t2.board side = false ∧
          canMoveSide t2.board side.opposite = false)) := by
  rcases hcell : t.board.get_cell c with e | cell
  · simp only [Turn.make_move, hcell] at h
    exact absurd h (by simp)
  rcases cell with - | d0
  swap
  · simp only [Turn.make_move, hcell] at h
    exact absurd h (by simp)
  rcases hst : t.state with - | side
  · simp only [Turn.make_move, hcell, hst] at h
    exact absurd h (by simp)
  simp only [Turn.make_move, hcell, hst] at h
  refine ⟨side, rfl, rfl, ?_⟩
  have hLc := loop_keeps_empty side hwf hcell
  split at h
  swap
  · exact absurd h (by simp)
  rename_i hlegal
  refine ⟨hlegal, ?_⟩
  split at h
  · rename_i htempo
    have ht2 := Except.ok.inj h
    subst ht2
    exact ⟨expectD_place hLc, fun hside => by subst hside; exact ⟨rfl, rfl⟩, fun hside => by subst hside; exact ⟨rfl, rfl⟩,
      Or.inl ⟨rfl, htempo⟩⟩
  · rename_i htempo
    split at h
    · rename_i hcanOpp
      have ht2 := Except.ok.inj h
      subst ht2
      exact ⟨expectD_place hLc, fun hside => by subst hside; exact ⟨rfl, rfl⟩, fun hside => by subst hside; exact ⟨rfl, rfl⟩,
        Or.inr (Or.inl ⟨rfl, hcanOpp⟩)⟩
    · rename_i hcanOpp
      split at h
      · rename_i hcanSame
        have ht2 := Except.ok.inj h
        subst ht2
        exact ⟨expectD_place hLc, fun hside => by subst hside; exact ⟨rfl, rfl⟩, fun hside => by subst hside; exact ⟨rfl, rfl⟩,
          Or.inr (Or.inr (Or.inl ⟨rfl, hcanSame⟩))⟩
      · rename_i hcanSame
        have ht2 := Except.ok.inj h
        subst ht2
        refine ⟨expectD_place hLc, fun hside => by subst hside; exact ⟨rfl, rfl⟩, fun hside => by subst hside; exact ⟨rfl, rfl⟩,
          Or.inr (Or.inr (Or.inr ⟨rfl, ?_, ?_⟩))⟩
        · exact Bool.eq_false_iff.mpr (fun hcon => hcanSame hcon)
        · exact Bool.eq_false_iff.mpr (fun hcon => hcanOpp hcon)

/-! ### The reachability invariant -/

theorem Side.cases_opposite (side s2 : Side) : s2 = side ∨ s2 = side.opposite := by
  cases side <;> cases s2 <;> simp [Side.opposite]

theorem Inv_make_move {t t2 : Turn} {c : Coord} (hInv : Inv t)
    (h : t.make_move c = .ok t2) : Inv t2 := by
  obtain ⟨hwf, hsd, hsl, hrun, hend⟩ := hInv
  obtain ⟨side, hst, hcell, hlegal, hboard, hsdark, hslight, hstate⟩ :=
    make_move_ok_destruct hwf h
  obtain ⟨hwfL, hframe, -, k, hek, hcs, hco⟩ :=
    makeMoveLoop_spec side c (moveDirs c) t.board 0 false hwf
  have hLc := loop_keeps_empty side hwf hcell
  have hinL := Board.get_cell_inB hwfL hLc
  have hplace := countSide_place hwfL hLc side
  have hwfB2 : t2.board.WF := by
    rw [hboard]
    exact Board.WF_setCell hwfL hinL _
  have hcount_side : countSide t2.board side = countSide t.board side + k + 1 := by
    rw [hboard, hplace.1]
    omega
  have hcount_opp : countSide t2.board side.opposite + k =
      countSide t.board side.opposite := by
    rw [hboard, hplace.2]
    omega
  have hkb : k ≤ countSide t.board side.opposite := by omega
  have hb1 : countSide t.board side ≤ 64 := countCellP_le_64 _ hwf
  have hb2 : countSide t.board side.opposite ≤ 64 := countCellP_le_64 _ hwf
  have hscores : t2.score_dark = countSide t2.board .Dark ∧
      t2.score_light = countSide t2.board .Light := by
    cases side with
    | Dark =>
      obtain ⟨hA, hB⟩ := hsdark rfl
      unfold wsub8 at hB
      simp only [Side.opposite] at hcount_opp hkb hb2
      constructor
      · omega
      · omega
    | Light =>
      obtain ⟨hA, hB⟩ := hslight rfl
      unfold wsub8 at hB
      simp only [Side.opposite] at hcount_opp hkb hb2
      constructor
      · omega
      · omega
  obtain ⟨hsc1, hsc2⟩ := hscores
  refine ⟨hwfB2, hsc1, hsc2, ?_, ?_⟩
  · intro s hs
    rcases hstate with ⟨hn, -⟩ | ⟨hs2, hcm⟩ | ⟨hs2, hcm⟩ | ⟨hn, -, -⟩
    · rw [hn] at hs
      exact absurd hs (by simp)
    · have heq : side.opposite = s := Option.some.inj (hs2.symm.trans hs)
      subst heq
      exact hcm
    · have heq : side = s := Option.some.inj (hs2.symm.trans hs)
      subst heq
      exact hcm
    · rw [hn] at hs
      exact absurd hs (by simp)
  · intro hn
    rcases hstate with ⟨-, htempo⟩ | ⟨hs2, -⟩ | ⟨hs2, -⟩ | ⟨-, hcm1, hcm2⟩
    · right
      have hO := occupied_split t2.board
      have hbD : countSide t2.board .Dark ≤ 64 := countCellP_le_64 _ hwfB2
      have hbL : countSide t2.board .Light ≤ 64 := countCellP_le_64 _ hwfB2
      omega
    · rw [hs2] at hn
      exact absurd hn (by simp)
    · rw [hs2] at hn
      exact absurd hn (by simp)
    · left
      constructor
      · rcases Side.cases_opposite side .Dark with hD | hD
        · rw [hD]
          exact hcm1
        · rw [hD]
          exact hcm2
      · rcases Side.cases_opposite side .Light with hL | hL
        · rw [hL]
          exact hcm1
        · rw [hL]
          exact hcm2

theorem Inv_first : Inv Turn.first_turn := by
  refine ⟨by decide, by decide, by decide, ?_, ?_⟩
  · intro s hs
    rw [show Turn.first_turn.state = some Side.Dark from rfl] at hs
    obtain rfl : Side.Dark = s := Option.some.inj hs
    decide
  · intro hcon
    rw [show Turn.first_turn.state = some Side.Dark from rfl] at hcon
    exact absurd hcon (by simp)

theorem Reachable_Inv {t : Turn} (h : Reachable t) : Inv t := by
  induction h with
  | first => exact Inv_first
  | step _ hmk ih => exact Inv_make_move ih hmk

/-! ### C1: score sum equals occupied cells -/

/-- C1: on every turn reachable from first_turn by successful make_move
calls, the two scores sum to the number of occupied cells.  The proof keeps
the stronger invariant that each score equals its side's disk count. -/
theorem c1_score_invariant (t : Turn) (h : Reachable t) :
    t.score_dark + t.score_light = occupiedCount t.board := by
  obtain ⟨-, hsd, hsl, -, -⟩ := Reachable_Inv h
  rw [hsd, hsl, occupied_split]

/-- Witness for C1 at the first turn: 2 + 2 equals the 4 occupied cells. -/
theorem c1_witness :
    Turn.first_turn.score_dark + Turn.first_turn.score_light =
      occupiedCount Turn.first_turn.board :=
  c1_score_invariant Turn.first_turn Reachable.first

/-! ### C3: running sides can move, ended games are stuck or full -/

/-- C3: on every reachable turn, a Running(side) state means can_move is
true for that side, and an Ended state means either neither side has a
legal move or all 64 cells are occupied. -/
theorem c3_state_invariant (t : Turn) (h : Reachable t) :
    (∀ s, t.state = some s → t.can_move = true) ∧
    (t.state = none →
      (canMoveSide t.board .Dark = false ∧ canMoveSide t.board .Light = false) ∨
        occupiedCount t.board = 64) := by
  obtain ⟨-, -, -, hrun, hend⟩ := Reachable_Inv h
  refine ⟨?_, hend⟩
  intro s hs
  have hcm := hrun s hs
  unfold Turn.can_move
  rw [hs]
  exact hcm

/-- Witness for C3 at the first turn: Dark is to move and can move. -/
theorem c3_witness : Turn.first_turn.can_move = true :=
  (c3_state_invariant Turn.first_turn Reachable.first).1 .Dark (by decide)

/-! ### C8: flip safety -/

/-- C8: a successful make_move reads the target as empty, afterwards the
target holds a new disk of the moving side, and every other cell is either
unchanged or an existing disk flipped to the other side — no disk is ever
removed and no empty cell other than the target becomes occupied. -/
theorem c8_flip_safety (t : Turn) (c : Coord) (t2 : Turn)
    (hwf : t.board.WF) (h : t.make_move c = .ok t2) :
    t.board.get_cell c = .ok none ∧
    (∃ s, t.state = some s ∧ t2.board.get_cell c = .ok (some (Disk.new s))) ∧
    (∀ q : Coord, q ≠ c →
      t2.board.get_cell q = t.board.get_cell q ∨
        ∃ disk, t.board.get_cell q = .ok (some disk) ∧
          t2.board.get_cell q = .ok (some disk.flip)) := by
  obtain ⟨side, hst, hcell, -, hboard, -, -, -⟩ := make_move_ok_destruct hwf h
  obtain ⟨hwfL, hframe, -, -, -, -, -⟩ :=
    makeMoveLoop_spec side c (moveDirs c) t.board 0 false hwf
  have hLc := loop_keeps_empty side hwf hcell
  have hinL := Board.get_cell_inB hwfL hLc
  refine ⟨hcell, ⟨side, hst, ?_⟩, ?_⟩
  · rw [hboard]
    exact Board.get_cell_setCell_self hwfL hinL _
  · intro q hq
    rw [hboard, Board.get_cell_setCell_other hwfL hinL _ hq]
    rcases hframe q with heq | ⟨disk, hb, -, hb2⟩
    · exact Or.inl heq
    · exact Or.inr ⟨disk, hb, hb2⟩

/-- Witness for C8: apply the theorem to the opening move (2,3), extracting
that the target cell was empty beforehand. -/
theorem c8_witness :
    Turn.first_turn.board.get_cell (Coord.new 2 3) = .ok none := by
  have hok : Turn.first_turn.make_move (Coord.new 2 3) =
      .ok (expectD (Turn.first_turn.make_move (Coord.new 2 3)) Turn.first_turn) := by
    decide
  exact (c8_flip_safety Turn.first_turn (Coord.new 2 3) _ (by decide) hok).1

/-! ### Ray geometry -/

theorem step_stepN (o : Coord) (d : Direction) (k : Nat) :
    (o.stepN d k).step d = o.stepN d (k + 1) := by
  cases o
  simp only [Coord.stepN, Coord.step, Coord.mk.injEq]
  constructor <;> push_cast <;> ring

theorem step_eq_stepN_one (o : Coord) (d : Direction) :
    o.step d = o.stepN d 1 := by
  cases o
  simp only [Coord.stepN, Coord.step, Coord.mk.injEq]
  constructor <;> push_cast <;> ring

theorem stepN_inj {o : Coord} {d : Direction} {j k : Nat}
    (h : o.stepN d j = o.stepN d k) : j = k := by
  obtain ⟨orow, ocol⟩ := o
  simp only [Coord.stepN, Coord.mk.injEq] at h
  obtain ⟨e1, e2⟩ := h
  cases d <;> simp only [Direction.dr, Direction.dc] at e1 e2 <;> omega

theorem ray_disjoint {o : Coord} {d1 d2 : Direction} (hne : d1 ≠ d2)
    {q : Coord} (h1 : onRay o d1 q) (h2 : onRay o d2 q) : False := by
  obtain ⟨j, hj1, rfl⟩ := h1
  obtain ⟨k, hk1, hkq⟩ := h2
  obtain ⟨orow, ocol⟩ := o
  simp only [Coord.stepN, Coord.mk.injEq] at hkq
  obtain ⟨e1, e2⟩ := hkq
  cases d1 <;> cases d2 <;>
    first
      | exact hne rfl
      | (simp only [Direction.dr, Direction.dc] at e1 e2; omega)

theorem stepN_onRay (o : Coord) (d : Direction) {k : Nat} (hk : 1 ≤ k) :
    onRay o d (o.stepN d k) := ⟨k, hk, rfl⟩

/-! ### Congruence of the scans along a ray -/

theorem scanSame_congr {b b2 : Board} {side : Side} {d : Direction}
    {o : Coord} :
    ∀ (fuel j : Nat),
      (∀ k, j ≤ k → b2.get_cell (o.stepN d k) = b.get_cell (o.stepN d k)) →
      scanSame b2 side d (o.stepN d j) fuel =
        scanSame b side d (o.stepN d j) fuel := by
  intro fuel
  induction fuel with
  | zero => intro j _; rfl
  | succ n ih =>
    intro j hag
    simp only [scanSame]
    rw [hag j (le_refl j)]
    rcases hc : b.get_cell (o.stepN d j) with e | cell
    · rfl
    · rcases cell with - | disk
      · rfl
      · show (if disk.get_side = side then true
            else scanSame b2 side d ((o.stepN d j).step d) n) =
          (if disk.get_side = side then true
            else scanSame b side d ((o.stepN d j).step d) n)
        by_cases hs : disk.get_side = side
        · rw [if_pos hs, if_pos hs]
        · rw [if_neg hs, if_neg hs, step_stepN]
          exact ih (j + 1) (fun k hk => hag k (by omega))

theorem check_along_congr {b b2 : Board} {side : Side} {d : Direction}
    {coord : Coord}
    (hag : ∀ k, 1 ≤ k →
      b2.get_cell (coord.stepN d k) = b.get_cell (coord.stepN d k)) :
    b2.check_move_along_direction coord d side =
      b.check_move_along_direction coord d side := by
  unfold Board.check_move_along_direction
  show (match b2.get_cell (coord.step d) with
      | .ok (some disk) =>
        if disk.get_side ≠ side then
          scanSame b2 side d ((coord.step d).step d) BOARD_SIZE
        else false
      | _ => false) =
    (match b.get_cell (coord.step d) with
      | .ok (some disk) =>
        if disk.get_side ≠ side then
          scanSame b side d ((coord.step d).step d) BOARD_SIZE
        else false
      | _ => false)
  rw [step_eq_stepN_one coord d, step_stepN coord d 1, hag 1 (le_refl 1)]
  rcases hc : b.get_cell (coord.stepN d 1) with e | cell
  · rfl
  · rcases cell with - | disk
    · rfl
    · show (if disk.get_side ≠ side then
          scanSame b2 side d (coord.stepN d 2) BOARD_SIZE
        else false) =
        (if disk.get_side ≠ side then
          scanSame b side d (coord.stepN d 2) BOARD_SIZE
        else false)
      by_cases hs : disk.get_side ≠ side
      · rw [if_pos hs, if_pos hs]
        exact scanSame_congr BOARD_SIZE 2 (fun k hk => hag k (by omega))
      · rw [if_neg hs, if_neg hs]

/-! ### The eating loop touches only its own ray -/

theorem eatWhile_ray_frame {side : Side} {d : Direction} {o : Coord} :
    ∀ (fuel j : Nat) (b : Board) (e0 : Nat) (l0 : Bool), b.WF → 1 ≤ j →
      (eatWhile side d fuel b (o.stepN d j) e0 l0).1.WF ∧
        ∀ q : Coord, ¬ onRay o d q →
          (eatWhile side d fuel b (o.stepN d j) e0 l0).1.get_cell q =
            b.get_cell q := by
  intro fuel
  induction fuel with
  | zero => intro j b e0 l0 hwf _; exact ⟨hwf, fun _ _ => rfl⟩
  | succ n ih =>
    intro j b e0 l0 hwf hj
    rcases hc : b.get_cell (o.stepN d j) with e | cell
    · have hstep : eatWhile side d (n + 1) b (o.stepN d j) e0 l0 = (b, e0, l0) := by
        simp [eatWhile, hc]
      rw [hstep]
      exact ⟨hwf, fun _ _ => rfl⟩
    · rcases cell with - | disk
      · have hstep : eatWhile side d (n + 1) b (o.stepN d j) e0 l0 = (b, e0, l0) := by
          simp [eatWhile, hc]
        rw [hstep]
        exact ⟨hwf, fun _ _ => rfl⟩
      · by_cases hs : disk.get_side = side
        · have hstep : eatWhile side d (n + 1) b (o.stepN d j) e0 l0 = (b, e0, true) := by
            simp [eatWhile, hc, hs]
          rw [hstep]
          exact ⟨hwf, fun _ _ => rfl⟩
        · have hin := Board.get_cell_inB hwf hc
          have hwf2 := Board.WF_setCell hwf hin (some disk.flip)
          have hstep : eatWhile side d (n + 1) b (o.stepN d j) e0 l0 =
              eatWhile side d n (b.setCell (o.stepN d j) (some disk.flip))
                (o.stepN d (j + 1)) (e0 + 1) l0 := by
            simp [eatWhile, hc, hs, expectD_flip hc, step_stepN]
          rw [hstep]
          obtain ⟨hwf3, hfr⟩ := ih (j + 1) _ (e0 + 1) l0 hwf2 (by omega)
          refine ⟨hwf3, ?_⟩
          intro q hq
          rw [hfr q hq]
          have hqne : q ≠ o.stepN d j := fun hcon =>
            hq (hcon ▸ stepN_onRay o d hj)
          exact Board.get_cell_setCell_other hwf hin _ hqne

theorem eatDirection_ray_frame {side : Side} {coord : Coord} {d : Direction}
    {b : Board} {e0 : Nat} {l0 : Bool} (hwf : b.WF) :
    (eatDirection side coord d b e0 l0).1.WF ∧
      ∀ q : Coord, ¬ onRay coord d q →
        (eatDirection side coord d b e0 l0).1.get_cell q = b.get_cell q := by
  by_cases hck : b.check_move_along_direction coord d side = true
  · obtain ⟨disk, hadj, hs, -⟩ := check_along_destruct hck
    have hadj1 : b.get_cell (coord.stepN d 1) = .ok (some disk) := by
      rw [← step_eq_stepN_one]; exact hadj
    have hin := Board.get_cell_inB hwf hadj1
    have hwf2 := Board.WF_setCell hwf hin (some disk.flip)
    have hred : eatDirection side coord d b e0 l0 =
        eatWhile side d BOARD_SIZE
          (b.setCell (coord.stepN d 1) (some disk.flip))
          (coord.stepN d 2) (e0 + 1) l0 := by
      have h1 : eatDirection side coord d b e0 l0 =
          eatWhile side d BOARD_SIZE (expectD (b.flip_disk (coord.step d)) b)
            ((coord.step d).step d) (e0 + 1) l0 := by
        simp [eatDirection, hck]
      rw [h1, expectD_flip hadj, step_eq_stepN_one coord d, step_stepN coord d 1]
    rw [hred]
    obtain ⟨hwf3, hfr⟩ := eatWhile_ray_frame BOARD_SIZE 2 _ (e0 + 1) l0 hwf2 (by omega)
    refine ⟨hwf3, ?_⟩
    intro q hq
    rw [hfr q hq]
    have hqne : q ≠ coord.stepN d 1 := fun hcon =>
      hq (hcon ▸ stepN_onRay coord d (le_refl 1))
    exact Board.get_cell_setCell_other hwf hin _ hqne
  · have hred : eatDirection side coord d b e0 l0 = (b, e0, l0) := by
      simp [eatDirection, hck]
    rw [hred]
    exact ⟨hwf, fun _ _ => rfl⟩

/-! ### A qualifying direction makes the eating loop find its terminator -/

theorem eatWhile_finds {side : Side} {d : Direction} {o : Coord} {b : Board} :
    ∀ (fuel j : Nat) (b2 : Board) (e0 : Nat) (l0 : Bool), b2.WF →
      (∀ k, j ≤ k → b2.get_cell (o.stepN d k) = b.get_cell (o.stepN d k)) →
      scanSame b side d (o.stepN d j) fuel = true →
      (eatWhile side d fuel b2 (o.stepN d j) e0 l0).2.2 = true := by
  intro fuel
  induction fuel with
  | zero =>
    intro j b2 e0 l0 _ _ hscan
    exact absurd hscan (by simp [scanSame])
  | succ n ih =>
    intro j b2 e0 l0 hwf2 hag hscan
    rcases hc : b.get_cell (o.stepN d j) with e | cell
    · rw [show scanSame b side d (o.stepN d j) (n + 1) = false from by
        simp [scanSame, hc]] at hscan
      exact absurd hscan (by simp)
    · rcases cell with - | disk
      · rw [show scanSame b side d (o.stepN d j) (n + 1) = false from by
          simp [scanSame, hc]] at hscan
        exact absurd hscan (by simp)
      · have hc2 : b2.get_cell (o.stepN d j) = .ok (some disk) := by
          rw [hag j (le_refl j)]
          exact hc
        by_cases hs : disk.get_side = side
        · rw [show eatWhile side d (n + 1) b2 (o.stepN d j) e0 l0 = (b2, e0, true)
            from by simp [eatWhile, hc2, hs]]
        · have hscan2 : scanSame b side d (o.stepN d (j + 1)) n = true := by
            rw [show scanSame b side d (o.stepN d j) (n + 1) =
                scanSame b side d ((o.stepN d j).step d) n from by
              simp [scanSame, hc, hs], step_stepN] at hscan
            exact hscan
          have hin2 := Board.get_cell_inB hwf2 hc2
          rw [show eatWhile side d (n + 1) b2 (o.stepN d j) e0 l0 =
              eatWhile side d n (b2.setCell (o.stepN d j) (some disk.flip))
                (o.stepN d (j + 1)) (e0 + 1) l0 from by
            simp [eatWhile, hc2, hs, expectD_flip hc2, step_stepN]]
          refine ih (j + 1) _ (e0 + 1) l0 (Board.WF_setCell hwf2 hin2 _) ?_ hscan2
          intro k hk
          have hne : o.stepN d k ≠ o.stepN d j := fun hcon => by
            have := stepN_inj hcon
            omega
          rw [Board.get_cell_setCell_other hwf2 hin2 _ hne]
          exact hag k (by omega)

theorem eatDirection_finds {side : Side} {coord : Coord} {d : Direction}
    {b b2 : Board} (hwf2 : b2.WF)
    (hag : ∀ k, 1 ≤ k →
      b2.get_cell (coord.stepN d k) = b.get_cell (coord.stepN d k))
    (hck : b.check_move_along_direction coord d side = true)
    (e0 : Nat) (l0 : Bool) :
    (eatDirection side coord d b2 e0 l0).2.2 = true := by
  have hck2 : b2.check_move_along_direction coord d side = true := by
    rw [check_along_congr hag]
    exact hck
  obtain ⟨disk, hadjb, hs, hscan⟩ := check_along_destruct hck
  have hadj1 : b.get_cell (coord.stepN d 1) = .ok (some disk) := by
    rw [← step_eq_stepN_one]
    exact hadjb
  have hadj2 : b2.get_cell (coord.step d) = .ok (some disk) := by
    rw [step_eq_stepN_one, hag 1 (le_refl 1)]
    exact hadj1
  have hin2 : (coord.stepN d 1).inB :=
    Board.get_cell_inB hwf2 (step_eq_stepN_one coord d ▸ hadj2)
  have hred : eatDirection side coord d b2 e0 l0 =
      eatWhile side d BOARD_SIZE
        (b2.setCell (coord.stepN d 1) (some disk.flip))
        (coord.stepN d 2) (e0 + 1) l0 := by
    have h1 : eatDirection side coord d b2 e0 l0 =
        eatWhile side d BOARD_SIZE (expectD (b2.flip_disk (coord.step d)) b2)
          ((coord.step d).step d) (e0 + 1) l0 := by
      simp [eatDirection, hck2]
    rw [h1, expectD_flip hadj2, step_eq_stepN_one coord d, step_stepN coord d 1]
  rw [hred]
  have hscan2 : scanSame b side d (coord.stepN d 2) BOARD_SIZE = true := by
    rw [← step_stepN coord d 1, ← step_eq_stepN_one coord d]
    exact hscan
  refine eatWhile_finds BOARD_SIZE 2 _ (e0 + 1) l0
    (Board.WF_setCell hwf2 hin2 _) ?_ hscan2
  intro k hk
  have hne : coord.stepN d k ≠ coord.stepN d 1 := fun hcon => by
    have := stepN_inj hcon
    omega
  rw [Board.get_cell_setCell_other hwf2 hin2 _ hne]
  exact hag k (by omega)

/-! ### The direction loop is legal exactly when some direction outflanks -/

theorem makeMoveLoop_legal_eq (side : Side) (coord : Coord) (bOrig : Board) :
    ∀ (ds : List Direction) (b2 : Board) (e0 : Nat) (l0 : Bool),
      b2.WF → ds.Nodup →
      (∀ dd ∈ ds, ∀ k, 1 ≤ k →
        b2.get_cell (coord.stepN dd k) = bOrig.get_cell (coord.stepN dd k)) →
      (makeMoveLoop side coord ds b2 e0 l0).2.2 =
        (l0 || ds.any fun dd =>
          bOrig.check_move_along_direction coord dd side) := by
  intro ds
  induction ds with
  | nil => intro b2 e0 l0 _ _ _; simp [makeMoveLoop]
  | cons dd ds ih =>
    intro b2 e0 l0 hwf hnd hag
    have hagd := hag dd (by simp)
    have hLdef : makeMoveLoop side coord (dd :: ds) b2 e0 l0 =
        makeMoveLoop side coord ds (eatDirection side coord dd b2 e0 l0).1
          (eatDirection side coord dd b2 e0 l0).2.1
          (eatDirection side coord dd b2 e0 l0).2.2 := rfl
    by_cases hck : bOrig.check_move_along_direction coord dd side = true
    · have hfind := eatDirection_finds hwf hagd hck e0 l0
      have hES := makeMoveLoop_spec side coord ds
        (eatDirection side coord dd b2 e0 l0).1
        (eatDirection side coord dd b2 e0 l0).2.1
        (eatDirection side coord dd b2 e0 l0).2.2
        (eatDirection_spec hwf).1
      have hout : (makeMoveLoop side coord (dd :: ds) b2 e0 l0).2.2 = true := by
        rw [hLdef]
        exact hES.2.2.1 hfind
      rw [hout]
      simp [List.any_cons, hck]
    · have hck2 : b2.check_move_along_direction coord dd side = false := by
        rw [check_along_congr hagd]
        exact Bool.eq_false_iff.mpr hck
      have hid : eatDirection side coord dd b2 e0 l0 = (b2, e0, l0) := by
        simp [eatDirection, hck2]
      rw [hLdef]
      simp only [hid]
      rw [ih b2 e0 l0 hwf (List.Nodup.of_cons hnd)
        (fun d2 hd2 => hag d2 (by simp [hd2]))]
      simp [List.any_cons, Bool.eq_false_iff.mpr hck]

theorem moveDirs_nodup (c : Coord) : (moveDirs c).Nodup :=
  List.Nodup.filter _ (by decide)

theorem make_move_loop_legal (side : Side) (c : Coord) {b : Board}
    (hwf : b.WF) :
    (makeMoveLoop side c (moveDirs c) b 0 false).2.2 =
      ((moveDirs c).any fun dd => b.check_move_along_direction c dd side) := by
  have h := makeMoveLoop_legal_eq side c b
    (moveDirs c) b 0 false hwf (moveDirs_nodup c) (fun _ _ _ _ => rfl)
  simpa using h

/-- The pruned direction disjunction of check_move coincides, as a function
of the per-direction atoms, with the filtered direction list of make_move,
at every in-bounds coordinate: an exhaustive check over the 64 cells and
all 256 direction predicates. -/
theorem checkDirs_eq_any :
    ∀ (r cc : Fin 8) (f : Direction → Bool),
      checkDirs f ((r.val : Int)) ((cc.val : Int)) =
        (moveDirs ⟨((r.val : Int)), ((cc.val : Int))⟩).any f := by
  decide

/-! ### C4 (amended): make_move and check_move agree -/

theorem make_move_ok_of_legal {t : Turn} {c : Coord} {side : Side}
    (hget : t.board.get_cell c = .ok none) (hst : t.state = some side)
    (hleg : (makeMoveLoop side c (moveDirs c) t.board 0 false).2.2 = true) :
    errOf (t.make_move c) = none := by
  simp only [Turn.make_move, hget, hst, hleg]
  rw [if_pos trivial]
  split
  · rfl
  · split
    · rfl
    · split
      · rfl
      · rfl

theorem make_move_illegal_of_not_legal {t : Turn} {c : Coord} {side : Side}
    (hget : t.board.get_cell c = .ok none) (hst : t.state = some side)
    (hleg : (makeMoveLoop side c (moveDirs c) t.board 0 false).2.2 = false) :
    t.make_move c = .error .IllegalMove := by
  simp only [Turn.make_move, hget, hst, hleg]
  rw [if_neg (by simp)]

theorem check_move_eval {t : Turn} {c : Coord} {side : Side}
    (hget : t.board.get_cell c = .ok none) (hst : t.state = some side) :
    t.check_move c =
      (if checkDirs
          (fun dd => t.board.check_move_along_direction c dd side)
          c.row c.col
        then .ok () else .error .IllegalMove) := by
  simp only [Turn.check_move, hst, hget]

/-- C4 (amended): make_move succeeds exactly when check_move succeeds, and
whenever the turn is Running the two return the same error kind
(OutOfBoundCoord, CellAlreadyTaken or IllegalMove).  Only on an Ended turn
can the kinds diverge, because make_move validates the target cell before
the ended state while check_move does the reverse. -/
theorem c4_make_check_agree (t : Turn) (c : Coord) (hwf : t.board.WF) :
    (errOf (t.make_move c) = none ↔ errOf (t.check_move c) = none) ∧
    (∀ s, t.state = some s → errOf (t.make_move c) = errOf (t.check_move c)) := by
  obtain ⟨crow, ccol⟩ := c
  rcases hget : t.board.get_cell ⟨crow, ccol⟩ with e | cell
  · rcases hst : t.state with - | side
    · have hm : t.make_move ⟨crow, ccol⟩ = .error e := by
        simp [Turn.make_move, hget]
      have hc2 : t.check_move ⟨crow, ccol⟩ = .error .EndedGame := by
        simp [Turn.check_move, hst]
      rw [hm, hc2]
      constructor
      · simp [errOf]
      · intro s hs
        exact absurd hs (by simp)
    · have hm : t.make_move ⟨crow, ccol⟩ = .error e := by
        simp [Turn.make_move, hget]
      have hc2 : t.check_move ⟨crow, ccol⟩ = .error e := by
        simp [Turn.check_move, hst, hget]
      rw [hm, hc2]
      exact ⟨Iff.rfl, fun _ _ => rfl⟩
  · rcases cell with - | d0
    · rcases hst : t.state with - | side
      · have hm : t.make_move ⟨crow, ccol⟩ = .error .EndedGame := by
          simp [Turn.make_move, hget, hst]
        have hc2 : t.check_move ⟨crow, ccol⟩ = .error .EndedGame := by
          simp [Turn.check_move, hst]
        rw [hm, hc2]
        exact ⟨Iff.rfl, fun _ _ => rfl⟩
      · have hin := Board.get_cell_inB hwf hget
        have h0r : 0 ≤ crow := hin.1
        have h8r : crow < 8 := hin.2.1
        have h0c : 0 ≤ ccol := hin.2.2.1
        have h8c : ccol < 8 := hin.2.2.2
        have hbr := checkDirs_eq_any ⟨crow.toNat, by omega⟩ ⟨ccol.toNat, by omega⟩
          (fun dd =>
            t.board.check_move_along_direction ⟨crow, ccol⟩ dd side)
        simp only [Fin.val_mk] at hbr
        rw [Int.toNat_of_nonneg h0r, Int.toNat_of_nonneg h0c] at hbr
        have hlegal := make_move_loop_legal side (⟨crow, ccol⟩ : Coord) hwf
        by_cases hAny : ((moveDirs (⟨crow, ccol⟩ : Coord)).any fun dd =>
            t.board.check_move_along_direction ⟨crow, ccol⟩ dd side) = true
        · have hmOk := make_move_ok_of_legal hget hst (by rw [hlegal]; exact hAny)
          have hcond : checkDirs
              (fun dd => t.board.check_move_along_direction ⟨crow, ccol⟩ dd side)
              crow ccol = true := by
            rw [hbr]
            exact hAny
          have hcOk : t.check_move ⟨crow, ccol⟩ = .ok () := by
            rw [check_move_eval hget hst]
            exact if_pos hcond
          rw [hcOk, hmOk]
          exact ⟨by simp [errOf], fun _ _ => by simp [errOf]⟩
        · have hAnyF := Bool.eq_false_iff.mpr hAny
          have hmErr := make_move_illegal_of_not_legal hget hst
            (by rw [hlegal]; exact hAnyF)
          have hcond : checkDirs
              (fun dd => t.board.check_move_along_direction ⟨crow, ccol⟩ dd side)
              crow ccol = false := by
            rw [hbr]
            exact hAnyF
          have hcErr : t.check_move ⟨crow, ccol⟩ = .error .IllegalMove := by
            rw [check_move_eval hget hst, hcond]
            exact if_neg (by simp)
          rw [hmErr, hcErr]
          exact ⟨by simp [errOf], fun _ _ => rfl⟩
    · rcases hst : t.state with - | side
      · have hm : t.make_move ⟨crow, ccol⟩ = .error .CellAlreadyTaken := by
          simp [Turn.make_move, hget]
        have hc2 : t.check_move ⟨crow, ccol⟩ = .error .EndedGame := by
          simp [Turn.check_move, hst]
        rw [hm, hc2]
        constructor
        · simp [errOf]
        · intro s hs
          exact absurd hs (by simp)
      · have hm : t.make_move ⟨crow, ccol⟩ = .error .CellAlreadyTaken := by
          simp [Turn.make_move, hget]
        have hc2 : t.check_move ⟨crow, ccol⟩ = .error .CellAlreadyTaken := by
          simp [Turn.check_move, hst, hget]
        rw [hm, hc2]
        exact ⟨Iff.rfl, fun _ _ => rfl⟩

/-- Witness for the amended C4: on the opening position and the illegal
coordinate (0,0), both validations report the same result. -/
theorem c4_amended_witness :
    errOf (Turn.first_turn.make_move (Coord.new 0 0)) =
      errOf (Turn.first_turn.check_move (Coord.new 0 0)) :=
  (c4_make_check_agree Turn.first_turn (Coord.new 0 0) (by decide)).2
    .Dark (by decide)

end Reversi
